import Mathlib

/-!
Verification of the experience-years extractor (`extract_required_years` from
`job_parser.py`) and the listing de-duplication loop (`get_job_listings` from
`linkedin_scraper.py`).

The extractor applies, in order, seven Python regular expressions to the
lower-cased description and renders a label from the first (leftmost) match of
the first pattern that matches.  We embed the exact seven patterns in a small
regular-expression language with Python's backtracking priority (alternation
tries the left branch first, repetition is greedy, a scan returns the match at
the leftmost starting position).  Every repetition operator in the seven
patterns ranges over a single character class, which the language reflects
(`starC` / `plusC` over a class), so the matcher is structurally recursive.
The Python classes `\d`, `\s` and `\w` are modelled by their ASCII fragments,
and `str.lower` by the ASCII `Char.toLower`, which is how the source uses them
on the job descriptions at hand.
-/

namespace JobParser

/-- ASCII whitespace, modelling the regex class `\s`. -/
def isSpaceCh (c : Char) : Bool :=
  c == ' ' || c == '\t' || c == '\n' || c == '\r' || c == Char.ofNat 11 || c == Char.ofNat 12

/-- ASCII word characters, modelling the regex class `\w` (used by `\b`). -/
def isWordCh (c : Char) : Bool :=
  c.isAlphanum || c == '_'

/-- The character classes occurring in the seven patterns of `job_parser.py`. -/
inductive CC where
  | digit
  | space
  | dashto
  | sep
deriving DecidableEq

/-- Membership in a character class: `digit` is `\d`, `space` is `\s`,
`dashto` is the class `[-–—to]` from the range pattern, `sep` is the class
`[\s:–—-]` from the labeled pattern. -/
def CC.ch : CC → Char → Bool
  | .digit, c => c.isDigit
  | .space, c => isSpaceCh c
  | .dashto, c => c == '-' || c == '–' || c == '—' || c == 't' || c == 'o'
  | .sep, c => isSpaceCh c || c == ':' || c == '–' || c == '—' || c == '-'

/-- Regular expressions as used by the seven patterns: literals, sequencing,
prioritized alternation, greedy option, greedy star/plus over a character
class, a capturing group, and the word boundary `\b`. -/
inductive RE where
  | eps
  | lit (c : Char)
  | seq (a b : RE)
  | alt (a b : RE)
  | opt (a : RE)
  | starC (k : CC)
  | plusC (k : CC)
  | grp (a : RE)
  | wb
deriving DecidableEq

/-- State after consuming `n` characters of `rest`: the new previous character
(for word boundaries) and the remaining input. -/
def consume : Option Char → List Char → Nat → Option Char × List Char
  | prev, rest, 0 => (prev, rest)
  | prev, rest, n + 1 =>
    match rest with
    | [] => (prev, [])
    | c :: cs => consume (some c) cs n

/-- Length of the maximal prefix of `rest` lying in class `k`. -/
def runLen (k : CC) : List Char → Nat
  | [] => 0
  | c :: cs => if k.ch c then runLen k cs + 1 else 0

/-- Greedy enumeration of repetition lengths `n, n-1, …, 0` (longest first). -/
def downFrom (prev : Option Char) (rest : List Char) :
    Nat → List (Option Char × List Char × List String)
  | 0 => [(prev, rest, [])]
  | n + 1 =>
    ((consume prev rest (n + 1)).1, (consume prev rest (n + 1)).2, []) :: downFrom prev rest n

/-- Greedy enumeration of repetition lengths `n, n-1, …, 1` (longest first). -/
def downFrom1 (prev : Option Char) (rest : List Char) :
    Nat → List (Option Char × List Char × List String)
  | 0 => []
  | n + 1 =>
    ((consume prev rest (n + 1)).1, (consume prev rest (n + 1)).2, []) :: downFrom1 prev rest n

/-- Is the previous/next character a word character (for `\b`)? -/
def wordO : Option Char → Bool
  | none => false
  | some c => isWordCh c

/-- All ways to match `r` at the current position, in Python's backtracking
priority order.  Each result is the new previous character, the remaining
input, and the list of captured group contents in group order. -/
def matchRE : RE → Option Char → List Char → List (Option Char × List Char × List String)
  | .eps, prev, rest => [(prev, rest, [])]
  | .lit c, _, rest =>
    match rest with
    | [] => []
    | c2 :: cs => if c2 == c then [(some c2, cs, [])] else []
  | .seq a b, prev, rest =>
    (matchRE a prev rest).flatMap fun x =>
      (matchRE b x.1 x.2.1).map fun y => (y.1, y.2.1, x.2.2 ++ y.2.2)
  | .alt a b, prev, rest => matchRE a prev rest ++ matchRE b prev rest
  | .opt a, prev, rest => matchRE a prev rest ++ [(prev, rest, [])]
  | .starC k, prev, rest => downFrom prev rest (runLen k rest)
  | .plusC k, prev, rest => downFrom1 prev rest (runLen k rest)
  | .grp a, prev, rest =>
    (matchRE a prev rest).map fun x =>
      (x.1, x.2.1, String.mk (rest.take (rest.length - x.2.1.length)) :: x.2.2)
  | .wb, prev, rest =>
    if wordO prev != wordO rest.head? then [(prev, rest, [])] else []

/-- Captures of the highest-priority result, if any. -/
def firstCaps (l : List (Option Char × List Char × List String)) : Option (List String) :=
  match l with
  | [] => none
  | x :: _ => some x.2.2

/-- Unanchored scan: the captures of the match at the leftmost starting
position, taking the highest-priority match there (the semantics of
`re.findall(...)[0]` and of `re.search`). -/
def findFirst : RE → Option Char → List Char → Option (List String)
  | r, prev, [] => firstCaps (matchRE r prev [])
  | r, prev, c :: cs =>
    match firstCaps (matchRE r prev (c :: cs)) with
    | some caps => some caps
    | none => findFirst r (some c) cs

/-- Concatenation of a list of regular expressions. -/
def rcat (l : List RE) : RE := l.foldr RE.seq RE.eps

/-- Literal word. -/
def rstr (s : String) : RE := rcat (s.data.map RE.lit)

/-- `\s*` -/
def sp0 : RE := RE.starC CC.space

/-- `\s+` -/
def sp1 : RE := RE.plusC CC.space

/-- `(\d+)` -/
def dgrp : RE := RE.grp (RE.plusC CC.digit)

/-- `(?:years?|yrs?)` -/
def yearsKw : RE :=
  RE.alt (rcat [rstr ("year"), RE.opt (RE.lit 's')]) (rcat [rstr ("yr"), RE.opt (RE.lit 's')])

/-- `(?:\s+of)?` -/
def ofOpt : RE := RE.opt (rcat [sp1, rstr ("of")])

/-- `(?:experience|exp)` -/
def expKw : RE := RE.alt (rstr ("experience")) (rstr ("exp"))

/-- `(?:experience|exp)?` -/
def expOpt : RE := RE.opt expKw

/-- The apostrophe character. -/
def apos : RE := RE.lit (Char.ofNat 39)

/-- `(?:years?'?|yrs?'?)` -/
def yearsApos : RE :=
  RE.alt (rcat [rstr ("year"), RE.opt (RE.lit 's'), RE.opt apos])
    (rcat [rstr ("yr"), RE.opt (RE.lit 's'), RE.opt apos])

/-- Pattern 1: `(\d+)\s*\+\s*(?:years?|yrs?)(?:\s+of)?\s+(?:experience|exp)?` -/
def pat1 : RE := rcat [dgrp, sp0, RE.lit '+', sp0, yearsKw, ofOpt, sp1, expOpt]

/-- Pattern 2: `(\d+)\s*[-–—to]+\s*(\d+)\s*(?:years?|yrs?)(?:\s+of)?\s+(?:experience|exp)?` -/
def pat2 : RE :=
  rcat [dgrp, sp0, RE.plusC CC.dashto, sp0, dgrp, sp0, yearsKw, ofOpt, sp1, expOpt]

/-- `(?:minimum|at\s+least|min\.?)` -/
def qualKw : RE :=
  RE.alt (rstr ("minimum"))
    (RE.alt (rcat [rstr ("at"), sp1, rstr ("least")])
      (rcat [rstr ("min"), RE.opt (RE.lit '.')]))

/-- Pattern 3: `(?:minimum|at\s+least|min\.?)\s*(\d+)\s*(?:years?|yrs?)(?:\s+of)?\s+(?:experience|exp)?` -/
def pat3 : RE := rcat [qualKw, sp0, dgrp, sp0, yearsKw, ofOpt, sp1, expOpt]

/-- Pattern 4: `(\d+)\s*(?:years?|yrs?)\s+(?:of\s+)?(?:experience|exp)` -/
def pat4 : RE := rcat [dgrp, sp0, yearsKw, sp1, RE.opt (rcat [rstr ("of"), sp1]), expKw]

/-- Pattern 5: `(?:experience|exp)[\s:–—-]+(\d+)\s*(?:years?|yrs?)` -/
def pat5 : RE := rcat [expKw, RE.plusC CC.sep, dgrp, sp0, yearsKw]

/-- Pattern 6: `(\d+)\s*(?:years?'?|yrs?'?)\s+experience` -/
def pat6 : RE := rcat [dgrp, sp0, yearsApos, sp1, rstr ("experience")]

/-- Pattern 7: `(\d+)\s*(?:years?|yrs?)\b` -/
def pat7 : RE := rcat [dgrp, sp0, yearsKw, RE.wb]

/-- The ordered pattern list of `extract_required_years`. -/
def patternList : List RE := [pat1, pat2, pat3, pat4, pat5, pat6, pat7]

/-- The lower-cased description, as a character list (`description.lower()`). -/
def lowerL (s : String) : List Char := s.data.map Char.toLower

/-- The re-check pattern `rf'{match}\s*\+'` built from a captured digit
string. -/
def plusPat (t : String) : RE := rcat (t.data.map RE.lit ++ [sp0, RE.lit '+'])

/-- `re.search(rf'{match}\s*\+', description_lower)` succeeds. -/
def plusAdj (t : String) (ls : List Char) : Bool :=
  (findFirst (plusPat t) none ls).isSome

/-- Rendering of the first match, following the body of the `for` loop:
a two-group match (a tuple in Python, from the range pattern) renders as a
range when the second group is non-empty and as a plus-form otherwise; a
one-group match renders as plain years, upgraded to plus-form when the
`+`-adjacency re-check fires.  (Every pattern has one or two groups, so the
final catch-all is unreachable.) -/
def renderMatch (ls : List Char) (caps : List String) : String :=
  match caps with
  | [a, b] => if b ≠ "" then a ++ ("-") ++ b ++ (" years") else a ++ ("+ years")
  | [a] => if plusAdj a ls then a ++ ("+ years") else a ++ (" years")
  | _ => "Not specified"

/-- The pattern loop of `extract_required_years`: the first pattern with a
match determines the result. -/
def tryPatterns (ls : List Char) : List RE → String
  | [] => "Not specified"
  | p :: ps =>
    match findFirst p none ls with
    | some caps => renderMatch ls caps
    | none => tryPatterns ls ps

/-- `extract_required_years` from `job_parser.py`; `none` models passing
`None`. -/
def extract_required_years : Option String → String
  | none => "Not specified"
  | some s => if s = "" then "Not specified" else tryPatterns (lowerL s) patternList

/-- Index (into the pattern list) and first-match captures of the first
pattern that matches; used to state which rule fired. -/
def firstHit (ls : List Char) : List RE → Option (Nat × List String)
  | [] => none
  | p :: ps =>
    match findFirst p none ls with
    | some caps => some (0, caps)
    | none => (firstHit ls ps).map fun x => (x.1 + 1, x.2)

end JobParser

namespace Scraper

/-- The record built by `_extract_job_from_card` for one job card. -/
structure JobData where
  job_id : String
  link : String
  job_title : String
  required_years : String
deriving DecidableEq

/-- The collection loop of `get_job_listings`: `none` models a card from
which no job id could be extracted (skipped), and `seen` is the
`seen_job_ids` set; a card whose id was already seen is skipped. -/
def collectJobs : List String → List (Option JobData) → List JobData
  | _, [] => []
  | seen, none :: cards => collectJobs seen cards
  | seen, some j :: cards =>
    if j.job_id ∈ seen then collectJobs seen cards
    else j :: collectJobs (j.job_id :: seen) cards

/-- `get_job_listings` from `linkedin_scraper.py`, over the per-card
extraction results. -/
def get_job_listings (cards : List (Option JobData)) : List JobData :=
  collectJobs [] cards

end Scraper

namespace JobParser

/-- Number of capturing groups of a pattern. -/
def ngroups : RE → Nat
  | .eps | .lit _ | .starC _ | .plusC _ | .wb => 0
  | .seq a b => ngroups a + ngroups b
  | .alt a b => ngroups a + ngroups b
  | .opt a => ngroups a
  | .grp a => ngroups a + 1

/-- No capturing group occurs under an alternation or an option, so every
match of the pattern produces exactly `ngroups` captures. -/
def rigid : RE → Bool
  | .eps | .lit _ | .starC _ | .plusC _ | .wb => true
  | .seq a b => rigid a && rigid b
  | .alt a b => rigid a && rigid b && (ngroups a == 0) && (ngroups b == 0)
  | .opt a => rigid a && (ngroups a == 0)
  | .grp a => rigid a

/-- Every capturing group of the pattern is `(\d+)`. -/
def goodGroups : RE → Bool
  | .eps | .lit _ | .starC _ | .plusC _ | .wb => true
  | .seq a b => goodGroups a && goodGroups b
  | .alt a b => goodGroups a && goodGroups b
  | .opt a => goodGroups a
  | .grp a => decide (a = RE.plusC CC.digit)

/-- Every match of the pattern must consume at least one digit. -/
def needsDigit : RE → Bool
  | .eps | .lit _ | .starC _ | .wb | .opt _ => false
  | .plusC k => k == CC.digit
  | .seq a b => needsDigit a || needsDigit b
  | .alt a b => needsDigit a && needsDigit b
  | .grp a => needsDigit a

/-- A non-empty string of decimal digits. -/
def DigitStr (t : String) : Prop :=
  t.data ≠ [] ∧ ∀ c ∈ t.data, c.isDigit = true

/-- The output invariant of the extractor: one of the four label shapes,
with non-empty digit strings for the numbers. -/
def GoodShape (out : String) : Prop :=
  out = "Not specified" ∨
    (∃ n, DigitStr n ∧ out = n ++ ("+ years")) ∨
    (∃ n m, DigitStr n ∧ DigitStr m ∧ out = n ++ ("-") ++ m ++ (" years")) ∨
    (∃ n, DigitStr n ∧ out = n ++ (" years"))

/-- Concrete inputs used in the witnesses and counterexamples. -/
def exMin : String := "Minimum 2 years of experience required"

def exAtLeast : String := "We need someone with at least 7 years experience"

def exSuffixPlus : String := "3 years of experience, salary 23+k"

def exTwoMentions : String := "5 years of experience first, 10 years of experience later"

def exRangeA : String := "Requirements: 3-5 years of software development experience"

def exRangeB : String := "Looking for a senior developer with 8 to 10 years of experience"

def exRangeRev : String := "Team with 9 to 2 years of experience"

def exNoDigit : String := "No experience mentioned in this description"

def exPlusEnd : String := "requires 5+ years"

def exPlusEndSp : String := "requires 5+ years "

def exJumbleA : String := "5 ot 7 years of experience"

def exJumbleB : String := "5too7 years of experience"

def exShape : String := "Looking for a developer with 5+ years of experience in Python"

end JobParser

namespace Scraper

/-- Sample job records for the de-duplication witness: `jobA2` shares its
identifier with `jobA` but differs in the title. -/
def jobA : JobData :=
  { job_id := "101", link := "https://example.test/101", job_title := "Dev",
    required_years := "Not specified" }

def jobA2 : JobData :=
  { job_id := "101", link := "https://example.test/101", job_title := "Dev (senior)",
    required_years := "Not specified" }

def jobB : JobData :=
  { job_id := "202", link := "https://example.test/202", job_title := "Data Engineer",
    required_years := "Not specified" }

/-- A card sequence with a failed extraction and a duplicated identifier. -/
def demoCards : List (Option JobData) := [some jobA, none, some jobB, some jobA2]

end Scraper

namespace JobParser

theorem consume_snd (n : Nat) : ∀ (prev : Option Char) (rest : List Char),
    (consume prev rest n).2 = rest.drop n := by
  induction n with
  | zero => intro prev rest; simp [consume]
  | succ m ih =>
    intro prev rest
    cases rest with
    | nil => simp [consume]
    | cons c cs => simpa [consume] using ih (some c) cs

theorem runLen_le_length (k : CC) : ∀ rest : List Char, runLen k rest ≤ rest.length := by
  intro rest
  induction rest with
  | nil => simp [runLen]
  | cons c cs ih =>
    simp only [runLen, List.length_cons]
    split
    · omega
    · omega

theorem mem_take_runLen (k : CC) : ∀ (rest : List Char) (n : Nat), n ≤ runLen k rest →
    ∀ c ∈ rest.take n, k.ch c = true := by
  intro rest
  induction rest with
  | nil => intro n _ c hc; simp at hc
  | cons a cs ih =>
    intro n hn c hc
    cases n with
    | zero => simp at hc
    | succ m =>
      simp only [runLen] at hn
      by_cases ha : k.ch a
      · rw [if_pos ha] at hn
        simp only [List.take_succ_cons, List.mem_cons] at hc
        rcases hc with rfl | hc
        · exact ha
        · exact ih m (by omega) c hc
      · rw [if_neg ha] at hn; omega

theorem mem_downFrom {prev : Option Char} {rest : List Char} :
    ∀ {n : Nat} {x}, x ∈ downFrom prev rest n →
      ∃ m, m ≤ n ∧ x = ((consume prev rest m).1, (consume prev rest m).2, ([] : List String)) := by
  intro n
  induction n with
  | zero =>
    intro x hx
    simp only [downFrom, List.mem_singleton] at hx
    exact ⟨0, Nat.le_refl 0, by simp [hx, consume]⟩
  | succ m ih =>
    intro x hx
    simp only [downFrom, List.mem_cons] at hx
    rcases hx with rfl | hx
    · exact ⟨m + 1, Nat.le_refl _, rfl⟩
    · obtain ⟨m2, hm2, hx⟩ := ih hx
      exact ⟨m2, Nat.le_succ_of_le hm2, hx⟩

theorem mem_downFrom1 {prev : Option Char} {rest : List Char} :
    ∀ {n : Nat} {x}, x ∈ downFrom1 prev rest n →
      ∃ m, 1 ≤ m ∧ m ≤ n ∧
        x = ((consume prev rest m).1, (consume prev rest m).2, ([] : List String)) := by
  intro n
  induction n with
  | zero => intro x hx; simp [downFrom1] at hx
  | succ m ih =>
    intro x hx
    simp only [downFrom1, List.mem_cons] at hx
    rcases hx with rfl | hx
    · exact ⟨m + 1, by omega, Nat.le_refl _, rfl⟩
    · obtain ⟨m2, h1, hm2, hx⟩ := ih hx
      exact ⟨m2, h1, Nat.le_succ_of_le hm2, hx⟩

theorem matchRE_rest_suffix : ∀ (r : RE) (prev : Option Char) (rest : List Char),
    ∀ x ∈ matchRE r prev rest, x.2.1 <:+ rest := by
  intro r
  induction r with
  | eps =>
    intro prev rest x hx
    simp only [matchRE, List.mem_singleton] at hx
    simp [hx]
  | lit c =>
    intro prev rest x hx
    cases rest with
    | nil => simp [matchRE] at hx
    | cons c2 cs =>
      simp only [matchRE] at hx
      split at hx
      · simp only [List.mem_singleton] at hx
        simp [hx, List.suffix_cons]
      · simp at hx
  | seq a b iha ihb =>
    intro prev rest x hx
    simp only [matchRE, List.mem_flatMap, List.mem_map] at hx
    obtain ⟨y, hy, z, hz, rfl⟩ := hx
    exact (ihb y.1 y.2.1 z hz).trans (iha prev rest y hy)
  | alt a b iha ihb =>
    intro prev rest x hx
    rcases List.mem_append.mp hx with hx | hx
    · exact iha prev rest x hx
    · exact ihb prev rest x hx
  | opt a iha =>
    intro prev rest x hx
    rcases List.mem_append.mp hx with hx | hx
    · exact iha prev rest x hx
    · simp only [List.mem_singleton] at hx
      simp [hx]
  | starC k =>
    intro prev rest x hx
    obtain ⟨m, _, rfl⟩ := mem_downFrom hx
    simpa [consume_snd] using List.drop_suffix m rest
  | plusC k =>
    intro prev rest x hx
    obtain ⟨m, _, _, rfl⟩ := mem_downFrom1 hx
    simpa [consume_snd] using List.drop_suffix m rest
  | grp a iha =>
    intro prev rest x hx
    simp only [matchRE, List.mem_map] at hx
    obtain ⟨y, hy, rfl⟩ := hx
    exact iha prev rest y hy
  | wb =>
    intro prev rest x hx
    simp only [matchRE] at hx
    split at hx
    · simp only [List.mem_singleton] at hx
      simp [hx]
    · simp at hx

end JobParser

namespace JobParser

theorem matchRE_caps_length : ∀ (r : RE), rigid r = true →
    ∀ (prev : Option Char) (rest : List Char), ∀ x ∈ matchRE r prev rest,
      x.2.2.length = ngroups r := by
  intro r
  induction r with
  | eps =>
    intro _ prev rest x hx
    simp only [matchRE, List.mem_singleton] at hx
    simp [hx, ngroups]
  | lit c =>
    intro _ prev rest x hx
    cases rest with
    | nil => simp [matchRE] at hx
    | cons c2 cs =>
      simp only [matchRE] at hx
      split at hx
      · simp only [List.mem_singleton] at hx
        simp [hx, ngroups]
      · simp at hx
  | seq a b iha ihb =>
    intro hr prev rest x hx
    simp only [rigid, Bool.and_eq_true] at hr
    simp only [matchRE, List.mem_flatMap, List.mem_map] at hx
    obtain ⟨y, hy, z, hz, rfl⟩ := hx
    simp only [ngroups, List.length_append]
    rw [iha hr.1 prev rest y hy, ihb hr.2 y.1 y.2.1 z hz]
  | alt a b iha ihb =>
    intro hr prev rest x hx
    simp only [rigid, Bool.and_eq_true, beq_iff_eq] at hr
    obtain ⟨⟨⟨ha, hb⟩, ha0⟩, hb0⟩ := hr
    simp only [ngroups, ha0, hb0]
    rcases List.mem_append.mp hx with hx | hx
    · rw [iha ha prev rest x hx, ha0]
    · rw [ihb hb prev rest x hx, hb0]
  | opt a iha =>
    intro hr prev rest x hx
    simp only [rigid, Bool.and_eq_true, beq_iff_eq] at hr
    simp only [ngroups, hr.2]
    rcases List.mem_append.mp hx with hx | hx
    · rw [iha hr.1 prev rest x hx, hr.2]
    · simp only [List.mem_singleton] at hx
      simp [hx]
  | starC k =>
    intro _ prev rest x hx
    obtain ⟨m, _, rfl⟩ := mem_downFrom hx
    simp [ngroups]
  | plusC k =>
    intro _ prev rest x hx
    obtain ⟨m, _, _, rfl⟩ := mem_downFrom1 hx
    simp [ngroups]
  | grp a iha =>
    intro hr prev rest x hx
    simp only [matchRE, List.mem_map] at hx
    obtain ⟨y, hy, rfl⟩ := hx
    simp only [ngroups, List.length_cons]
    rw [iha hr prev rest y hy]
  | wb =>
    intro _ prev rest x hx
    simp only [matchRE] at hx
    split at hx
    · simp only [List.mem_singleton] at hx
      simp [hx, ngroups]
    · simp at hx

theorem matchRE_caps_digit : ∀ (r : RE), goodGroups r = true →
    ∀ (prev : Option Char) (rest : List Char), ∀ x ∈ matchRE r prev rest,
      ∀ t ∈ x.2.2, DigitStr t := by
  intro r
  induction r with
  | eps =>
    intro _ prev rest x hx
    simp only [matchRE, List.mem_singleton] at hx
    simp [hx]
  | lit c =>
    intro _ prev rest x hx
    cases rest with
    | nil => simp [matchRE] at hx
    | cons c2 cs =>
      simp only [matchRE] at hx
      split at hx
      · simp only [List.mem_singleton] at hx
        simp [hx]
      · simp at hx
  | seq a b iha ihb =>
    intro hr prev rest x hx
    simp only [goodGroups, Bool.and_eq_true] at hr
    simp only [matchRE, List.mem_flatMap, List.mem_map] at hx
    obtain ⟨y, hy, z, hz, rfl⟩ := hx
    intro t ht
    rcases List.mem_append.mp ht with ht | ht
    · exact iha hr.1 prev rest y hy t ht
    · exact ihb hr.2 y.1 y.2.1 z hz t ht
  | alt a b iha ihb =>
    intro hr prev rest x hx
    simp only [goodGroups, Bool.and_eq_true] at hr
    rcases List.mem_append.mp hx with hx | hx
    · exact iha hr.1 prev rest x hx
    · exact ihb hr.2 prev rest x hx
  | opt a iha =>
    intro hr prev rest x hx
    simp only [goodGroups] at hr
    rcases List.mem_append.mp hx with hx | hx
    · exact iha hr prev rest x hx
    · simp only [List.mem_singleton] at hx
      simp [hx]
  | starC k =>
    intro _ prev rest x hx
    obtain ⟨m, _, rfl⟩ := mem_downFrom hx
    simp
  | plusC k =>
    intro _ prev rest x hx
    obtain ⟨m, _, _, rfl⟩ := mem_downFrom1 hx
    simp
  | grp a iha =>
    intro hr prev rest x hx
    simp only [goodGroups] at hr
    have ha : a = RE.plusC CC.digit := of_decide_eq_true hr
    subst ha
    simp only [matchRE, List.mem_map] at hx
    obtain ⟨y, hy, rfl⟩ := hx
    obtain ⟨m, hm1, hm2, rfl⟩ := mem_downFrom1 hy
    intro t ht
    simp only [List.mem_cons, List.not_mem_nil, or_false] at ht
    subst ht
    have hrest : (consume prev rest m).2 = rest.drop m := consume_snd m prev rest
    have hlen : m ≤ rest.length := le_trans hm2 (runLen_le_length CC.digit rest)
    constructor
    · rw [hrest]
      simp only [List.length_drop]
      have : rest.length - (rest.length - m) = m := by omega
      rw [this]
      intro hnil
      rcases List.take_eq_nil_iff.mp hnil with h0 | h0
      · omega
      · subst h0; simp at hlen; omega
    · intro c hc
      rw [hrest] at hc
      simp only [List.length_drop] at hc
      have : rest.length - (rest.length - m) = m := by omega
      rw [this] at hc
      have := mem_take_runLen CC.digit rest m hm2 c hc
      simpa [CC.ch] using this
  | wb =>
    intro _ prev rest x hx
    simp only [matchRE] at hx
    split at hx
    · simp only [List.mem_singleton] at hx
      simp [hx]
    · simp at hx


theorem matchRE_needsDigit : ∀ (r : RE), needsDigit r = true →
    ∀ (prev : Option Char) (rest : List Char),
      (∀ c ∈ rest, c.isDigit = false) → matchRE r prev rest = [] := by
  intro r
  induction r with
  | eps => intro hr; simp [needsDigit] at hr
  | lit c => intro hr; simp [needsDigit] at hr
  | seq a b iha ihb =>
    intro hr prev rest hrest
    simp only [needsDigit, Bool.or_eq_true] at hr
    rcases hr with hr | hr
    · simp only [matchRE, iha hr prev rest hrest, List.flatMap_nil]
    · simp only [matchRE]
      rw [List.eq_nil_iff_forall_not_mem]
      intro z hz
      simp only [List.mem_flatMap, List.mem_map] at hz
      obtain ⟨y, hy, _, hw, _⟩ := hz
      have hsuf := matchRE_rest_suffix a prev rest y hy
      have : matchRE b y.1 y.2.1 = [] :=
        ihb hr y.1 y.2.1 fun c hc => hrest c (hsuf.subset hc)
      rw [this] at hw
      simp at hw
  | alt a b iha ihb =>
    intro hr prev rest hrest
    simp only [needsDigit, Bool.and_eq_true] at hr
    simp only [matchRE, iha hr.1 prev rest hrest, ihb hr.2 prev rest hrest, List.append_nil]
  | opt a iha => intro hr; simp [needsDigit] at hr
  | starC k => intro hr; simp [needsDigit] at hr
  | plusC k =>
    intro hr prev rest hrest
    simp only [needsDigit, beq_iff_eq] at hr
    subst hr
    have h0 : runLen CC.digit rest = 0 := by
      cases rest with
      | nil => rfl
      | cons c cs =>
        simp only [runLen, CC.ch]
        rw [if_neg (by rw [hrest c (List.mem_cons_self c cs)]; simp)]
    simp [matchRE, h0, downFrom1]
  | grp a iha =>
    intro hr prev rest hrest
    simp only [needsDigit] at hr
    simp [matchRE, iha hr prev rest hrest]
  | wb => intro hr; simp [needsDigit] at hr

theorem findFirst_eq_none (r : RE) (hr : needsDigit r = true) :
    ∀ (rest : List Char) (prev : Option Char), (∀ c ∈ rest, c.isDigit = false) →
      findFirst r prev rest = none := by
  intro rest
  induction rest with
  | nil =>
    intro prev _
    simp [findFirst, matchRE_needsDigit r hr prev [] (by simp), firstCaps]
  | cons c cs ih =>
    intro prev hrest
    have h1 : matchRE r prev (c :: cs) = [] := matchRE_needsDigit r hr prev (c :: cs) hrest
    simp only [findFirst, h1, firstCaps]
    exact ih (some c) fun d hd => hrest d (List.mem_cons_of_mem c hd)

theorem findFirst_eq_some : ∀ (r : RE) (rest : List Char) (prev : Option Char)
    (caps : List String), findFirst r prev rest = some caps →
      ∃ prev2 rest2 x, x ∈ matchRE r prev2 rest2 ∧ x.2.2 = caps := by
  intro r rest
  induction rest with
  | nil =>
    intro prev caps h
    simp only [findFirst, firstCaps] at h
    split at h
    · exact absurd h (by simp)
    · rename_i x l heq
      exact ⟨prev, [], x, by rw [heq]; exact List.mem_cons_self x l, by simpa using h⟩
  | cons c cs ih =>
    intro prev caps h
    simp only [findFirst] at h
    split at h
    · rename_i caps2 heq
      simp only [firstCaps] at heq
      split at heq
      · exact absurd heq (by simp)
      · rename_i x l hm
        refine ⟨prev, c :: cs, x, by rw [hm]; exact List.mem_cons_self x l, ?_⟩
        simp only [Option.some_inj] at heq h
        rw [heq, h]
    · exact ih (some c) caps h

theorem tryPatterns_eq_firstHit (ls : List Char) : ∀ ps : List RE,
    tryPatterns ls ps =
      (match firstHit ls ps with
       | none => "Not specified"
       | some x => renderMatch ls x.2) := by
  intro ps
  induction ps with
  | nil => rfl
  | cons p ps ih =>
    simp only [tryPatterns, firstHit]
    cases h : findFirst p none ls with
    | some caps => rfl
    | none =>
      rw [ih]
      cases firstHit ls ps with
      | none => rfl
      | some x => rfl

theorem firstHit_spec (ls : List Char) : ∀ (ps : List RE) (i : Nat) (caps : List String),
    firstHit ls ps = some (i, caps) →
      (∀ j, j < i → ∀ p, ps.get? j = some p → findFirst p none ls = none) ∧
        (∃ p, ps.get? i = some p ∧ findFirst p none ls = some caps) := by
  intro ps
  induction ps with
  | nil => intro i caps h; simp [firstHit] at h
  | cons p ps ih =>
    intro i caps h
    simp only [firstHit] at h
    cases hp : findFirst p none ls with
    | some caps2 =>
      rw [hp] at h
      simp only [Option.some_inj, Prod.mk.injEq] at h
      obtain ⟨rfl, rfl⟩ := h
      refine ⟨fun j hj => absurd hj (by omega), p, rfl, hp⟩
    | none =>
      rw [hp] at h
      simp only [Option.map_eq_some'] at h
      obtain ⟨⟨i2, caps2⟩, hfh, heq⟩ := h
      simp only [Prod.mk.injEq] at heq
      obtain ⟨rfl, rfl⟩ := heq
      obtain ⟨h1, p2, hp2, hf2⟩ := ih i2 caps2 hfh
      constructor
      · intro j hj q hq
        cases j with
        | zero => simp only [List.get?_cons_zero, Option.some_inj] at hq; rw [← hq]; exact hp
        | succ j2 =>
          simp only [List.get?_cons_succ] at hq
          exact h1 j2 (by omega) q hq
      · exact ⟨p2, by simpa using hp2, hf2⟩

theorem extract_eq_renderMatch {s : String} (hs : s ≠ "") {i : Nat} {caps : List String}
    (h : firstHit (lowerL s) patternList = some (i, caps)) :
    extract_required_years (some s) = renderMatch (lowerL s) caps := by
  show (if s = "" then "Not specified" else tryPatterns (lowerL s) patternList) = _
  rw [if_neg hs, tryPatterns_eq_firstHit, h]


theorem toLower_isDigit_false {c : Char} (h : c.isDigit = false) :
    c.toLower.isDigit = false := by
  simp only [Char.toLower]
  split
  · rename_i hc
    obtain ⟨h1, h2⟩ := hc
    clear h
    revert h1 h2
    generalize Char.toNat c = n
    intro h1 h2
    interval_cases n <;> decide
  · exact h

theorem lowerL_no_digit {s : String} (h : ∀ c ∈ s.data, c.isDigit = false) :
    ∀ c ∈ lowerL s, c.isDigit = false := by
  intro c hc
  simp only [lowerL, List.mem_map] at hc
  obtain ⟨d, hd, rfl⟩ := hc
  exact toLower_isDigit_false (h d hd)

theorem tryPatterns_all_none (ls : List Char) : ∀ ps : List RE,
    (∀ p ∈ ps, findFirst p none ls = none) → tryPatterns ls ps = "Not specified" := by
  intro ps
  induction ps with
  | nil => intro _; rfl
  | cons p ps ih =>
    intro h
    simp only [tryPatterns, h p (List.mem_cons_self p ps)]
    exact ih fun q hq => h q (List.mem_cons_of_mem p hq)

theorem goodShape_tryPatterns (ls : List Char) : ∀ ps : List RE,
    (∀ p ∈ ps, goodGroups p = true ∧ rigid p = true ∧ (ngroups p = 1 ∨ ngroups p = 2)) →
      GoodShape (tryPatterns ls ps) := by
  intro ps
  induction ps with
  | nil => intro _; exact Or.inl rfl
  | cons p ps ih =>
    intro hps
    simp only [tryPatterns]
    cases hf : findFirst p none ls with
    | none => exact ih fun q hq => hps q (List.mem_cons_of_mem p hq)
    | some caps =>
      obtain ⟨hg, hrig, hng⟩ := hps p (List.mem_cons_self p ps)
      obtain ⟨prev2, rest2, x, hx, hcaps⟩ := findFirst_eq_some p ls none caps hf
      have hlen := matchRE_caps_length p hrig prev2 rest2 x hx
      have hdig := matchRE_caps_digit p hg prev2 rest2 x hx
      rw [hcaps] at hlen hdig
      rcases hng with h1 | h2
      · rw [h1] at hlen
        obtain ⟨a, rfl⟩ := List.length_eq_one.mp hlen
        have hda := hdig a (List.mem_cons_self a [])
        by_cases hpa : plusAdj a ls
        · simp only [renderMatch, if_pos hpa]
          exact Or.inr (Or.inl ⟨a, hda, rfl⟩)
        · simp only [renderMatch, if_neg hpa]
          exact Or.inr (Or.inr (Or.inr ⟨a, hda, rfl⟩))
      · rw [h2] at hlen
        obtain ⟨a, b, rfl⟩ := List.length_eq_two.mp hlen
        have hda := hdig a (List.mem_cons_self a [b])
        have hdb := hdig b (List.mem_cons_of_mem a (List.mem_cons_self b []))
        have hb : b ≠ "" := by
          intro hb
        
          exact hdb.1 (by rw [hb])
        simp only [renderMatch, if_pos hb]
        exact Or.inr (Or.inr (Or.inl ⟨a, b, hda, hdb, rfl⟩))

/-- C2: for every input (any string, the empty string, or `None`),
`extract_required_years` returns one of the four label shapes
`"Not specified"`, `"<N>+ years"`, `"<N>-<M> years"`, `"<N> years"` with
`N`, `M` non-empty decimal digit strings; it is never free text and never
empty. -/
theorem extract_required_years_shape (d : Option String) :
    GoodShape (extract_required_years d) := by
  cases d with
  | none => exact Or.inl rfl
  | some s =>
    show GoodShape (if s = "" then "Not specified" else tryPatterns (lowerL s) patternList)
    split
    · exact Or.inl rfl
    · apply goodShape_tryPatterns
      intro p hp
      simp only [patternList, List.mem_cons, List.not_mem_nil, or_false] at hp
      rcases hp with rfl | rfl | rfl | rfl | rfl | rfl | rfl <;>
        exact ⟨by decide, by decide, by decide⟩

/-- C6: for every input string containing no digit characters,
`extract_required_years` returns `"Not specified"`. -/
theorem extract_no_digits (s : String) (h : ∀ c ∈ s.data, c.isDigit = false) :
    extract_required_years (some s) = "Not specified" := by
  show (if s = "" then "Not specified" else tryPatterns (lowerL s) patternList) = _
  split
  · rfl
  · apply tryPatterns_all_none
    intro p hp
    have hnd : needsDigit p = true := by
      simp only [patternList, List.mem_cons, List.not_mem_nil, or_false] at hp
      rcases hp with rfl | rfl | rfl | rfl | rfl | rfl | rfl <;> decide
    exact findFirst_eq_none p hnd (lowerL s) none (lowerL_no_digit h)

/-- Witness for C6 at a concrete digit-free description. -/
theorem extract_no_digits_witness :
    extract_required_years (some exNoDigit) = "Not specified" :=
  extract_no_digits exNoDigit (by decide)

/-- C7: `extract_required_years(None)` and `extract_required_years("")` are
both `"Not specified"`: empty or absent input short-circuits before any
pattern is consulted. -/
theorem extract_none_empty :
    extract_required_years none = "Not specified" ∧
      extract_required_years (some ("")) = "Not specified" :=
  ⟨rfl, rfl⟩


/-- C4: the rules are tried in the fixed priority order and the first rule
with a match in the lower-cased text determines the output, using only the
captures of its first (leftmost) match; no earlier rule has any match. -/
theorem extract_priority_first_match (s : String) (i : Nat) (caps : List String)
    (hs : s ≠ "") (h : firstHit (lowerL s) patternList = some (i, caps)) :
    (∀ j, j < i → ∀ p, patternList.get? j = some p → findFirst p none (lowerL s) = none) ∧
      (∃ p, patternList.get? i = some p ∧ findFirst p none (lowerL s) = some caps) ∧
        extract_required_years (some s) = renderMatch (lowerL s) caps := by
  obtain ⟨h1, h2⟩ := firstHit_spec (lowerL s) patternList i caps h
  exact ⟨h1, h2, extract_eq_renderMatch hs h⟩

/-- Witness for C4: a text mentioning "5 years" before "10 years" is labeled
from the 5, by the first match of the first matching rule (here rule (d)). -/
theorem extract_priority_first_match_witness :
    extract_required_years (some exTwoMentions) = "5 years" :=
  ((extract_priority_first_match exTwoMentions 3 (["5"]) (by decide)
    (by decide)).2.2).trans (by decide)

/-- C3: when the first matching rule is one of the single-integer rules
(d)-(g) (index at least 3), the result is `"<N>+ years"` exactly when the
lower-cased text somewhere contains the captured digits followed by optional
whitespace and a `+`, and `"<N> years"` otherwise. -/
theorem extract_plus_adjacency (s : String) (i : Nat) (n : String) (hs : s ≠ "")
    (h : firstHit (lowerL s) patternList = some (i, [n])) (_hi : 3 ≤ i) :
    extract_required_years (some s) =
      if plusAdj n (lowerL s) then n ++ ("+ years") else n ++ (" years") :=
  extract_eq_renderMatch hs h

/-- Witness for C3: rule (d) captures "3", and the unrelated "23+" later in
the text makes the plus-adjacency re-check fire, upgrading to "3+ years". -/
theorem extract_plus_adjacency_witness :
    extract_required_years (some exSuffixPlus) = "3+ years" :=
  (extract_plus_adjacency exSuffixPlus 3 ("3") (by decide) (by decide)
    (by decide)).trans (by decide)

/-- C1 counterexample: the claim says the minimum-qualifier form yields
`"2+ years"` on this input, but the code yields `"2 years"`: patterns with a
single group all go through the `+`-adjacency branch, and this text contains
no `+`. -/
theorem extract_min_qualifier_counterexample :
    extract_required_years (some exMin) ≠ "2+ years" := by decide

/-- C1 (amended): when the first matching rule is the minimum-qualifier form
(index 2), the result is `"<N>+ years"` only when the captured digits are
followed by optional whitespace and a `+` somewhere in the lower-cased text,
and `"<N> years"` otherwise. -/
theorem extract_min_qualifier (s : String) (n : String) (hs : s ≠ "")
    (h : firstHit (lowerL s) patternList = some (2, [n])) :
    extract_required_years (some s) =
      if plusAdj n (lowerL s) then n ++ ("+ years") else n ++ (" years") :=
  extract_eq_renderMatch hs h

/-- Witness for C1 (amended): the two spec examples, which produce plain
`"2 years"` / `"7 years"` rather than the claimed plus-forms. -/
theorem extract_min_qualifier_witness :
    extract_required_years (some exMin) = "2 years" ∧
      extract_required_years (some exAtLeast) = "7 years" :=
  ⟨(extract_min_qualifier exMin ("2") (by decide) (by decide)).trans (by decide),
   (extract_min_qualifier exAtLeast ("7") (by decide) (by decide)).trans (by decide)⟩

/-- C5: when the first matching rule is the range form (index 1), the result
is `"<N>-<M> years"` with the two captured integers in their literal order of
appearance (no reordering). -/
theorem extract_range_form (s : String) (n m : String) (hs : s ≠ "")
    (h : firstHit (lowerL s) patternList = some (1, [n, m])) :
    extract_required_years (some s) = n ++ ("-") ++ m ++ (" years") := by
  have hr := extract_eq_renderMatch hs h
  obtain ⟨-, p, hp, hf⟩ := firstHit_spec (lowerL s) patternList 1 [n, m] h
  have hp2 : p = pat2 := by
    rw [show patternList.get? 1 = some pat2 from rfl] at hp
    exact (Option.some_inj.mp hp).symm
  subst hp2
  obtain ⟨prev2, rest2, x, hx, hcaps⟩ := findFirst_eq_some pat2 (lowerL s) none [n, m] hf
  have hdig := matchRE_caps_digit pat2 (by decide) prev2 rest2 x hx
  rw [hcaps] at hdig
  have hm : m ≠ "" := by
    intro hm0
    exact (hdig m (by simp)).1 (by rw [hm0])
  rw [hr]
  simp only [renderMatch, if_pos hm]

/-- Witness for C5: the two spec examples and a reversed range kept in
literal order. -/
theorem extract_range_form_witness :
    extract_required_years (some exRangeA) = "3-5 years" ∧
      extract_required_years (some exRangeB) = "8-10 years" ∧
        extract_required_years (some exRangeRev) = "9-2 years" :=
  ⟨(extract_range_form exRangeA ("3") ("5") (by decide) (by decide)).trans (by decide),
   (extract_range_form exRangeB ("8") ("10") (by decide) (by decide)).trans (by decide),
   (extract_range_form exRangeRev ("9") ("2") (by decide) (by decide)).trans (by decide)⟩

/-- C9: a description ending exactly in a plus-form phrase is not matched
(the plus-form pattern requires whitespace after the years keyword), so the
result is `"Not specified"`; appending a single trailing space makes the
plus-form match and yields `"5+ years"`. -/
theorem extract_plus_form_trailing :
    extract_required_years (some exPlusEnd) = "Not specified" ∧
      extract_required_years (some exPlusEndSp) = "5+ years" :=
  ⟨by decide, by decide⟩

/-- C10: the range separator is the character class `[-–—to]+`, so any
jumble of the characters `-`, `–`, `—`, `t`, `o` between two integers is
accepted as a separator. -/
theorem extract_range_separator_class :
    (∀ c ∈ (['-', '–', '—', 't', 'o'] : List Char), CC.ch CC.dashto c = true) ∧
      extract_required_years (some exJumbleA) = "5-7 years" ∧
        extract_required_years (some exJumbleB) = "5-7 years" :=
  ⟨by decide, by decide, by decide⟩

end JobParser


namespace Scraper

theorem collectJobs_not_mem_seen : ∀ (cards : List (Option JobData)) (seen : List String),
    ∀ j ∈ collectJobs seen cards, j.job_id ∉ seen := by
  intro cards
  induction cards with
  | nil => intro seen j hj; simp [collectJobs] at hj
  | cons c cs ih =>
    intro seen j hj
    cases c with
    | none => exact ih seen j (by simpa [collectJobs] using hj)
    | some k =>
      simp only [collectJobs] at hj
      split at hj
      · exact ih seen j hj
      · rename_i hk
        simp only [List.mem_cons] at hj
        rcases hj with rfl | hj
        · exact hk
        · intro hmem
          exact ih (k.job_id :: seen) j hj (List.mem_cons_of_mem _ hmem)

theorem collectJobs_nodup : ∀ (cards : List (Option JobData)) (seen : List String),
    ((collectJobs seen cards).map JobData.job_id).Nodup := by
  intro cards
  induction cards with
  | nil => intro seen; simp [collectJobs]
  | cons c cs ih =>
    intro seen
    cases c with
    | none => simpa [collectJobs] using ih seen
    | some k =>
      simp only [collectJobs]
      split
      · exact ih seen
      · simp only [List.map_cons, List.nodup_cons]
        refine ⟨?_, ih (k.job_id :: seen)⟩
        intro hmem
        simp only [List.mem_map] at hmem
        obtain ⟨j, hj, hid⟩ := hmem
        exact collectJobs_not_mem_seen cs (k.job_id :: seen) j hj
          (hid ▸ List.mem_cons_self k.job_id seen)

theorem collectJobs_find_first : ∀ (cards : List (Option JobData)) (seen : List String),
    ∀ j ∈ collectJobs seen cards,
      (cards.filterMap id).find? (fun x => x.job_id == j.job_id) = some j := by
  intro cards
  induction cards with
  | nil => intro seen j hj; simp [collectJobs] at hj
  | cons c cs ih =>
    intro seen j hj
    cases c with
    | none =>
      simp only [collectJobs] at hj
      have hfm : List.filterMap id (none :: cs) = cs.filterMap id := by simp
      rw [hfm]
      exact ih seen j hj
    | some k =>
      simp only [collectJobs] at hj
      have hfm : List.filterMap id (some k :: cs) = k :: cs.filterMap id := by simp
      rw [hfm]
      split at hj
      · rename_i hk
        have hjs := collectJobs_not_mem_seen cs seen j hj
        have hne : (k.job_id == j.job_id) = false := by
          rw [beq_eq_false_iff_ne]
          intro he
          exact hjs (he ▸ hk)
        rw [List.find?_cons_of_neg _ (by simp [hne])]
        exact ih seen j hj
      · rename_i hk
        simp only [List.mem_cons] at hj
        rcases hj with rfl | hj
        · rw [List.find?_cons_of_pos _ (by simp)]
        · have hjs := collectJobs_not_mem_seen cs (k.job_id :: seen) j hj
          have hne : (k.job_id == j.job_id) = false := by
            rw [beq_eq_false_iff_ne]
            intro he
            exact hjs (he ▸ List.mem_cons_self k.job_id seen)
          rw [List.find?_cons_of_neg _ (by simp [hne])]
          exact ih (k.job_id :: seen) j hj

theorem collectJobs_covered : ∀ (cards : List (Option JobData)) (seen : List String),
    ∀ j ∈ cards.filterMap id,
      j.job_id ∈ seen ∨ ∃ j2 ∈ collectJobs seen cards, j2.job_id = j.job_id := by
  intro cards
  induction cards with
  | nil => intro seen j hj; simp at hj
  | cons c cs ih =>
    intro seen j hj
    cases c with
    | none =>
      have hfm : List.filterMap id (none :: cs) = cs.filterMap id := by simp
      rw [hfm] at hj
      simpa [collectJobs] using ih seen j hj
    | some k =>
      have hfm : List.filterMap id (some k :: cs) = k :: cs.filterMap id := by simp
      rw [hfm] at hj
      simp only [collectJobs]
      rcases List.mem_cons.mp hj with rfl | hj2
      · split
        · rename_i hk
          exact Or.inl hk
        · exact Or.inr ⟨j, List.mem_cons_self j _, rfl⟩
      · split
        · rename_i hk
          exact ih seen j hj2
        · rename_i hk
          rcases ih (k.job_id :: seen) j hj2 with h | ⟨j2, hj2m, he⟩
          · rcases List.mem_cons.mp h with heq | hseen
            · exact Or.inr ⟨k, List.mem_cons_self k _, heq.symm⟩
            · exact Or.inl hseen
          · exact Or.inr ⟨j2, List.mem_cons_of_mem _ hj2m, he⟩

/-- C8: `get_job_listings` keeps at most one record per job identifier; a
record in the output is always the first-encountered card record with that
identifier, and every successfully extracted identifier is represented. -/
theorem get_job_listings_dedup (cards : List (Option JobData)) :
    ((get_job_listings cards).map JobData.job_id).Nodup ∧
      (∀ j ∈ get_job_listings cards,
        (cards.filterMap id).find? (fun x => x.job_id == j.job_id) = some j) ∧
      (∀ j ∈ cards.filterMap id, ∃ j2 ∈ get_job_listings cards, j2.job_id = j.job_id) := by
  refine ⟨collectJobs_nodup cards [], fun j hj => collectJobs_find_first cards [] j hj,
    fun j hj => ?_⟩
  rcases collectJobs_covered cards [] j hj with h | h
  · simp at h
  · exact h

/-- Witness for C8 on a concrete card sequence with a skipped card and a
duplicated identifier: the duplicate `jobA2` is dropped in favour of the
first-seen `jobA`, whose identifier it shares. -/
theorem get_job_listings_dedup_witness :
    ((get_job_listings demoCards).map JobData.job_id).Nodup ∧
      (demoCards.filterMap id).find? (fun x => x.job_id == jobA.job_id) = some jobA ∧
        ∃ j2 ∈ get_job_listings demoCards, j2.job_id = jobA2.job_id :=
  ⟨(get_job_listings_dedup demoCards).1,
    (get_job_listings_dedup demoCards).2.1 jobA (by decide),
    (get_job_listings_dedup demoCards).2.2 jobA2 (by decide)⟩

end Scraper
